import Mathlib

/-!
Verification of the coverage-attribution tools of this repository:
a shallow embedding of `tools/coverage_uncovered.py` and
`tools/map_uncovered_to_functions.py`, together with theorems about the
properties stated in the design document.

Line numbers are embedded as integers (`Int`, Python's `int`), text as
`String` / `List Char`.  Regex character classes (`\s`, `\d`, `\w`) are
taken in their ASCII reading, which is the shape of the `llvm-cov` text
these scripts consume.
-/

namespace Coverage

/-- The opening-brace character (ASCII 123). -/
def obr : Char := '\x7b'

/-- The closing-brace character (ASCII 125). -/
def cbr : Char := '\x7d'

/-- Python's whitespace class, as used by `str.strip`, `str.split` and the
regex class `\s` (ASCII part): space, tab, newline, carriage return,
vertical tab, form feed. -/
def isPyWS (c : Char) : Bool :=
  c = ' ' || c = '\t' || c = '\n' || c = '\r' || c = '\x0b' || c = '\x0c'

/-- Worker for `str.splitlines` (terminators `\n`, `\r\n`, `\r`); `acc` holds
the characters of the current line in reverse. -/
def splitLinesGo (acc : List Char) : List Char → List (List Char)
  | [] => if acc = [] then [] else [acc.reverse]
  | '\r' :: '\n' :: rest => acc.reverse :: splitLinesGo [] rest
  | '\n' :: rest => acc.reverse :: splitLinesGo [] rest
  | '\r' :: rest => acc.reverse :: splitLinesGo [] rest
  | c :: rest => splitLinesGo (c :: acc) rest

/-- `str.splitlines`. -/
def splitLines (s : List Char) : List (List Char) :=
  splitLinesGo [] s

/-- Value of a decimal digit string (`int(...)` on the matched group). -/
def digitsToNat (ds : List Char) : Nat :=
  ds.foldl (fun a c => 10 * a + (c.toNat - '0'.toNat)) 0

/-- Matching of one line of annotated coverage text against the regex
`^\s*(\d+)\|\s*([0-9]+)?\|.*$` of `parse_annotated`.  Both character classes
involved (`\s` and the digits) are disjoint, so the regex is deterministic:
maximal munch per class, then the required literal `|`.  Returns the line
number together with the optional execution-count field. -/
def lineMatch (l : List Char) : Option (Nat × Option (List Char)) :=
  let s1 := l.dropWhile isPyWS
  let ds := s1.takeWhile Char.isDigit
  let r1 := s1.dropWhile Char.isDigit
  if ds.isEmpty then none
  else
    match r1 with
    | '|' :: r2 =>
      let r3 := r2.dropWhile isPyWS
      let cs := r3.takeWhile Char.isDigit
      let r4 := r3.dropWhile Char.isDigit
      match r4 with
      | '|' :: _ => some (digitsToNat ds, if cs.isEmpty then none else some cs)
      | _ => none
    | _ => none

/-- One iteration of the `parse_annotated` loop: the line number is kept
exactly when the line matches and its count field is literally `"0"`. -/
def uncoveredLine? (l : List Char) : Option Nat :=
  match lineMatch l with
  | some (n, some c) => if c = ['0'] then some n else none
  | _ => none

/-- The collecting loop of `parse_annotated`. -/
def parseAnnotatedGo : List (List Char) → List Nat
  | [] => []
  | ln :: rest =>
    match uncoveredLine? ln with
    | some n => n :: parseAnnotatedGo rest
    | none => parseAnnotatedGo rest

/-- `parse_annotated` of `tools/coverage_uncovered.py`. -/
def parse_annotated (output : String) : List Nat :=
  parseAnnotatedGo (splitLines output.toList)

theorem mem_parseAnnotatedGo {n : Nat} :
    ∀ ls : List (List Char),
      n ∈ parseAnnotatedGo ls ↔ ∃ l ∈ ls, uncoveredLine? l = some n
  | [] => by simp [parseAnnotatedGo]
  | ln :: rest => by
    rw [parseAnnotatedGo]
    cases h : uncoveredLine? ln with
    | none =>
      rw [mem_parseAnnotatedGo rest]
      constructor
      · rintro ⟨l, hl, he⟩; exact ⟨l, List.mem_cons_of_mem _ hl, he⟩
      · rintro ⟨l, hl, he⟩
        rcases List.mem_cons.mp hl with rfl | hl
        · rw [h] at he; cases he
        · exact ⟨l, hl, he⟩
    | some m =>
      simp only [List.mem_cons, mem_parseAnnotatedGo rest]
      constructor
      · rintro (rfl | ⟨l, hl, he⟩)
        · exact ⟨ln, Or.inl rfl, h⟩
        · exact ⟨l, Or.inr hl, he⟩
      · rintro ⟨l, rfl | hl, he⟩
        · rw [h] at he; exact Or.inl (Option.some.inj he).symm
        · exact Or.inr ⟨l, hl, he⟩

theorem uncoveredLine?_eq_some {l : List Char} {n : Nat} :
    uncoveredLine? l = some n ↔ lineMatch l = some (n, some ['0']) := by
  rw [uncoveredLine?]
  cases h : lineMatch l with
  | none => simp
  | some p =>
    obtain ⟨m, c⟩ := p
    cases c with
    | none => simp
    | some cs =>
      by_cases hc : cs = ['0'] <;> subst_eqs <;> simp_all

/-- C4: `parse_annotated` is a total function of the input text, and a line
number enters the uncovered list exactly through a line matching
`^\s*(\d+)\|\s*([0-9]+)?\|.*$` whose count field is literally `"0"`: lines
that do not match the pattern are ignored, matched lines with an absent count
field contribute nothing, and matched lines with any count other than the
literal string `"0"` are not reported as uncovered. -/
theorem parse_annotated_uncovered_iff (output : String) (n : Nat) :
    n ∈ parse_annotated output ↔
      ∃ l ∈ splitLines output.toList, lineMatch l = some (n, some ['0']) := by
  rw [parse_annotated, mem_parseAnnotatedGo]
  constructor
  · rintro ⟨l, hl, he⟩; exact ⟨l, hl, uncoveredLine?_eq_some.mp he⟩
  · rintro ⟨l, hl, he⟩; exact ⟨l, hl, uncoveredLine?_eq_some.mpr he⟩

/-- C4 witness: on the annotated line `  2|      0|  return 1;` the parser
reports exactly line 2 as uncovered. -/
theorem parse_annotated_uncovered_iff_witness :
    2 ∈ parse_annotated "  1|      1|int f:\n  2|      0|  return 1;\n  3|       |x\n" ∧
      ∃ l ∈ splitLines ("  1|      1|int f:\n  2|      0|  return 1;\n  3|       |x\n").toList,
        lineMatch l = some (2, some ['0']) :=
  ⟨by decide,
   (parse_annotated_uncovered_iff "  1|      1|int f:\n  2|      0|  return 1;\n  3|       |x\n" 2).mp
     (by decide)⟩

/-! ### Range compression -/

/-- `sorted` on a list of integers (ascending). -/
def sortInt (l : List Int) : List Int :=
  l.insertionSort (· ≤ ·)

/-- `sorted(set(lines))`: the strictly ascending enumeration of the distinct
elements. -/
def sortedDedup (l : List Int) : List Int :=
  (sortInt l).dedup

/-- The range-building loop of `compress_ranges`: `start` and `prev` bound
the currently open run of consecutive values. -/
def compressGo (start prev : Int) : List Int → List (Int × Int)
  | [] => [(start, prev)]
  | n :: rest =>
    if n = prev + 1 then compressGo start n rest
    else (start, prev) :: compressGo n n rest

/-- `compress_ranges` of `tools/coverage_uncovered.py` (the copy in
`tools/map_uncovered_to_functions.py` is the same algorithm, emitting
two-element lists instead of tuples). -/
def compress_ranges (lines : List Int) : List (Int × Int) :=
  match sortedDedup lines with
  | [] => []
  | x :: xs => compressGo x x xs

theorem mem_sortedDedup {k : Int} {l : List Int} : k ∈ sortedDedup l ↔ k ∈ l := by
  rw [sortedDedup, List.mem_dedup, sortInt, (List.perm_insertionSort _ l).mem_iff]

theorem chain'_lt_sortedDedup (l : List Int) :
    List.Chain' (· < ·) (sortedDedup l) := by
  apply List.Pairwise.chain'
  have hs : (sortedDedup l).Pairwise (· ≤ ·) :=
    (List.sorted_insertionSort _ l).sublist (List.dedup_sublist _)
  have hn : (sortedDedup l).Pairwise (· ≠ ·) := List.nodup_dedup _
  exact (hs.and hn).imp fun h => lt_of_le_of_ne h.1 h.2

theorem compressGo_mem (k : Int) :
    ∀ (xs : List Int) (start prev : Int), start ≤ prev →
      List.Chain' (· < ·) (prev :: xs) →
      ((∃ r ∈ compressGo start prev xs, r.1 ≤ k ∧ k ≤ r.2) ↔
        (start ≤ k ∧ k ≤ prev) ∨ k ∈ xs)
  | [], start, prev, _, _ => by simp [compressGo]
  | n :: rest, start, prev, hle, hch => by
    have hpn : prev < n := hch.rel_head
    have hch' : List.Chain' (· < ·) (n :: rest) := hch.tail
    rw [compressGo]
    by_cases hn : n = prev + 1
    · rw [if_pos hn, compressGo_mem k rest start n (by omega) hch']
      subst hn
      simp only [List.mem_cons]
      constructor
      · rintro (⟨h1, h2⟩ | h)
        · rcases lt_or_le k (prev + 1) with h3 | h3
          · exact Or.inl ⟨h1, by omega⟩
          · exact Or.inr (Or.inl (by omega))
        · exact Or.inr (Or.inr h)
      · rintro (⟨h1, h2⟩ | rfl | h)
        · exact Or.inl ⟨h1, by omega⟩
        · exact Or.inl ⟨by omega, le_refl _⟩
        · exact Or.inr h
    · rw [if_neg hn]
      simp only [List.mem_cons, exists_eq_or_imp]
      rw [compressGo_mem k rest n n (le_refl n) hch']
      constructor
      · rintro (⟨h1, h2⟩ | ⟨h1, h2⟩ | h)
        · exact Or.inl ⟨h1, h2⟩
        · exact Or.inr (Or.inl (by omega))
        · exact Or.inr (Or.inr h)
      · rintro (⟨h1, h2⟩ | rfl | h)
        · exact Or.inl ⟨h1, h2⟩
        · exact Or.inr (Or.inl ⟨le_refl _, le_refl _⟩)
        · exact Or.inr (Or.inr h)

theorem compressGo_bounds :
    ∀ (xs : List Int) (start prev : Int), start ≤ prev →
      List.Chain' (· < ·) (prev :: xs) →
      (compressGo start prev xs).Pairwise (fun a b => a.1 < b.1 ∧ a.2 + 1 < b.1) ∧
        ∀ r ∈ compressGo start prev xs, start ≤ r.1 ∧ r.1 ≤ r.2
  | [], start, prev, hle, _ => by simp [compressGo, hle]
  | n :: rest, start, prev, hle, hch => by
    have hpn : prev < n := hch.rel_head
    have hch' : List.Chain' (· < ·) (n :: rest) := hch.tail
    rw [compressGo]
    by_cases hn : n = prev + 1
    · rw [if_pos hn]
      obtain ⟨hpw, hbd⟩ := compressGo_bounds rest start n (by omega) hch'
      exact ⟨hpw, hbd⟩
    · rw [if_neg hn]
      obtain ⟨hpw, hbd⟩ := compressGo_bounds rest n n (le_refl n) hch'
      refine ⟨List.pairwise_cons.mpr ⟨fun r hr => ?_, hpw⟩, ?_⟩
      · have := hbd r hr
        constructor <;> omega
      · intro r hr
        rcases List.mem_cons.mp hr with rfl | hr
        · exact ⟨le_refl _, hle⟩
        · have := hbd r hr
          constructor <;> omega

/-- C2: `compress_ranges` on an empty input yields the empty output; on any
input, the emitted ranges are ascending, pairwise non-overlapping and
non-adjacent (no two could be merged), each range is well-formed
(`start ≤ end`), and flattening the ranges back to integers recovers exactly
the set of input values (order and duplicates ignored). -/
theorem compress_ranges_spec :
    compress_ranges [] = [] ∧
      ∀ S : List Int,
        (compress_ranges S).Pairwise (fun a b => a.1 < b.1 ∧ a.2 + 1 < b.1) ∧
          (∀ r ∈ compress_ranges S, r.1 ≤ r.2) ∧
          ∀ k : Int, (∃ r ∈ compress_ranges S, r.1 ≤ k ∧ k ≤ r.2) ↔ k ∈ S := by
  refine ⟨rfl, fun S => ?_⟩
  have hch := chain'_lt_sortedDedup S
  have hmem : ∀ k : Int, k ∈ sortedDedup S ↔ k ∈ S := fun k => mem_sortedDedup
  rw [compress_ranges]
  cases h : sortedDedup S with
  | nil =>
    refine ⟨List.Pairwise.nil, by simp, fun k => ?_⟩
    have := hmem k
    rw [h] at this
    simp only [List.not_mem_nil, false_iff] at this ⊢
    simp [this]
  | cons x xs =>
    rw [h] at hch hmem
    obtain ⟨hpw, hbd⟩ := compressGo_bounds xs x x (le_refl x) hch
    refine ⟨hpw, fun r hr => (hbd r hr).2, fun k => ?_⟩
    rw [compressGo_mem k xs x x (le_refl x) hch, ← hmem k]
    simp only [List.mem_cons]
    constructor
    · rintro (⟨h1, h2⟩ | hk)
      · exact Or.inl (le_antisymm h2 h1)
      · exact Or.inr hk
    · rintro (rfl | hk)
      · exact Or.inl ⟨le_refl _, le_refl _⟩
      · exact Or.inr hk

/-- C2 witness: the theorem applied at the concrete input `[7, 3, 4, 3]`. -/
theorem compress_ranges_spec_witness :
    (compress_ranges [7, 3, 4, 3]).Pairwise (fun a b => a.1 < b.1 ∧ a.2 + 1 < b.1) ∧
      (∀ r ∈ compress_ranges [7, 3, 4, 3], r.1 ≤ r.2) ∧
      ∀ k : Int, (∃ r ∈ compress_ranges [7, 3, 4, 3], r.1 ≤ k ∧ k ≤ r.2) ↔
        k ∈ ([7, 3, 4, 3] : List Int) :=
  compress_ranges_spec.2 [7, 3, 4, 3]

/-! ### Report extraction -/

/-- `needle` occurs as an initial segment of `hay`. -/
def leadMatch : List Char → List Char → Bool
  | [], _ => true
  | _ :: _, [] => false
  | a :: as, b :: bs => a == b && leadMatch as bs

/-- Python's substring test `needle in hay`. -/
def containsSub (needle : List Char) : List Char → Bool
  | [] => leadMatch needle []
  | c :: t => leadMatch needle (c :: t) || containsSub needle t

/-- Matching of `(\d+\.\d+)%` at the head of `l` (both classes are digits, so
the regex is deterministic): on success, the captured `digits.digits` group
and the text after the `%`. -/
def pctAt (l : List Char) : Option (List Char × List Char) :=
  let d1 := l.takeWhile Char.isDigit
  let r1 := l.dropWhile Char.isDigit
  if d1.isEmpty then none
  else
    match r1 with
    | '.' :: r2 =>
      let d2 := r2.takeWhile Char.isDigit
      let r3 := r2.dropWhile Char.isDigit
      if d2.isEmpty then none
      else
        match r3 with
        | '%' :: r4 => some (d1 ++ '.' :: d2, r4)
        | _ => none
    | _ => none

theorem pctAt_shrink : ∀ {l : List Char} {g r : List Char},
    pctAt l = some (g, r) → r.length < l.length := by
  intro l g r h
  rw [pctAt] at h
  split_ifs at h with h1
  split at h
  case _ r1 r2 heq =>
    dsimp only at h
    split_ifs at h with h2
    split at h
    case _ r3 r4 heq2 =>
      have e1 : l.takeWhile Char.isDigit ++ l.dropWhile Char.isDigit = l :=
        List.takeWhile_append_dropWhile _ _
      have e2 : r2.takeWhile Char.isDigit ++ r2.dropWhile Char.isDigit = r2 :=
        List.takeWhile_append_dropWhile _ _
      have hl : l.length = (l.takeWhile Char.isDigit).length + r2.length + 1 := by
        conv_lhs => rw [← e1, heq]
        simp [List.length_append]
        omega
      have hr2 : r2.length = (r2.takeWhile Char.isDigit).length + r4.length + 1 := by
        conv_lhs => rw [← e2, heq2]
        simp [List.length_append]
        omega
      obtain ⟨rfl, rfl⟩ : g = _ ∧ r = r4 := by
        injection h with h'; injection h' with ha hb; exact ⟨ha.symm, hb.symm⟩
      omega
    case _ => exact absurd h (by simp)
  case _ => exact absurd h (by simp)

/-- `re.findall` of `(\d+\.\d+)%`: scan left to right, emit each
non-overlapping match and continue after it, else advance one character.
Every step consumes at least one character (`pctAt_shrink`), so `fuel`
equal to the input length always finishes the scan. -/
def findPctsGo : Nat → List Char → List (List Char)
  | 0, _ => []
  | _, [] => []
  | fuel + 1, c :: rest =>
    match pctAt (c :: rest) with
    | some (g, r) => g :: findPctsGo fuel r
    | none => findPctsGo fuel rest

/-- All `(\d+\.\d+)%` captures of one line. -/
def findPcts (l : List Char) : List (List Char) :=
  findPctsGo l.length l

/-- The scanning loop of `extract_report_for_file`: the first report line
containing the filename as a substring, with its percentage tokens. -/
def extractGo (fn : List Char) : List (List Char) → Option (List Char) × List (List Char)
  | [] => (none, [])
  | line :: rest =>
    if containsSub fn line then (some line, findPcts line) else extractGo fn rest

/-- `extract_report_for_file` of `tools/coverage_uncovered.py`. -/
def extract_report_for_file (report_output filename : String) :
    Option String × List String :=
  let p := extractGo filename.toList (splitLines report_output.toList)
  (p.1.map (fun l => String.mk l), p.2.map (fun l => String.mk l))

theorem extractGo_eq (fn : List Char) :
    ∀ ls : List (List Char),
      extractGo fn ls =
        match ls.find? (containsSub fn) with
        | some line => (some line, findPcts line)
        | none => (none, [])
  | [] => by simp [extractGo, List.find?]
  | line :: rest => by
    rw [extractGo]
    by_cases h : containsSub fn line
    · rw [if_pos h, List.find?_cons_of_pos _ h]
    · rw [if_neg h, List.find?_cons_of_neg _ (by simpa using h), extractGo_eq fn rest]

/-- C8: `extract_report_for_file` is total and returns the first report line
that contains the target filename as a substring, together with every
`digits.digits%` token of that line; when no line contains the filename the
result is the explicit not-found value `(none, [])`. -/
theorem extract_report_spec (report_output filename : String) :
    extract_report_for_file report_output filename =
      (((splitLines report_output.toList).find? (containsSub filename.toList)).map
          (fun l => String.mk l),
        match (splitLines report_output.toList).find? (containsSub filename.toList) with
        | some line => (findPcts line).map (fun l => String.mk l)
        | none => []) := by
  rw [extract_report_for_file, extractGo_eq]
  cases h : (splitLines report_output.toList).find? (containsSub filename.toList) <;> simp

/-- C8 witness: the theorem applied at a concrete two-row report, target
present in the second row. -/
theorem extract_report_spec_witness :
    extract_report_for_file "name  cover\nsrc/foo.cpp  85.00%  90.12%\n" "foo.cpp" =
      (((splitLines ("name  cover\nsrc/foo.cpp  85.00%  90.12%\n").toList).find?
          (containsSub ("foo.cpp").toList)).map (fun l => String.mk l),
        match (splitLines ("name  cover\nsrc/foo.cpp  85.00%  90.12%\n").toList).find?
            (containsSub ("foo.cpp").toList) with
        | some line => (findPcts line).map (fun l => String.mk l)
        | none => []) :=
  extract_report_spec "name  cover\nsrc/foo.cpp  85.00%  90.12%\n" "foo.cpp"

/-! ### JSON recovery in get_uncovered -/

/-- `str.rfind`: index of the last occurrence of `c` in `l`, if any. -/
def lastIdx (l : List Char) (c : Char) : Option Nat :=
  (l.reverse.findIdx? (· == c)).map (fun i => l.length - 1 - i)

/-- `get_uncovered` of `tools/map_uncovered_to_functions.py`.  The JSON
parser `json.loads` is code external to the repository and is passed in as
`loads`, with `none` modelling a parse failure; the `{e}` fragment of the
final error message (the text of the underlying exception) is likewise
external and is elided from the modelled message. -/
def get_uncovered {α : Type} (loads : List Char → Option α) (out : List Char) :
    Except (List Char) α :=
  if out = [] then
    Except.error "coverage_uncovered produced no output".toList
  else
    match out.findIdx? (· == obr) with
    | none => Except.error ("coverage_uncovered did not print JSON:\n".toList ++ out)
    | some first_brace =>
      let json_text := out.drop first_brace
      match loads json_text with
      | some v => Except.ok v
      | none =>
        match lastIdx json_text cbr with
        | none => Except.error ("coverage_uncovered JSON parse failed:\n".toList ++ out)
        | some last_brace =>
          match loads (json_text.take (last_brace + 1)) with
          | some v => Except.ok v
          | none =>
            Except.error ("coverage_uncovered JSON parse failed: \nFull output:\n".toList ++ out)

theorem leadMatch_self : ∀ l : List Char, leadMatch l l = true
  | [] => rfl
  | c :: t => by rw [leadMatch]; simp [leadMatch_self t]

theorem containsSub_append_self : ∀ (pre l : List Char), containsSub l (pre ++ l) = true
  | [], l => by
    cases l with
    | nil => rfl
    | cons c t => rw [List.nil_append, containsSub]; simp [leadMatch_self]
  | a :: pre, l => by
    rw [List.cons_append, containsSub]
    simp [containsSub_append_self pre l]

/-- C9: when the downstream wrapper's output fails to parse as JSON (already
restricted to the suffix starting at the first `{`), `get_uncovered` retries
exactly once on the text trimmed to the outermost brace pair — from the first
`{` to the last `}` — and returns its parse when the retry succeeds; if the
trimmed text still fails to parse, it returns a fatal error whose message
contains the raw output text. -/
theorem get_uncovered_recovery {α : Type} (loads : List Char → Option α) (out : List Char)
    (fb : Nat) (h1 : out.findIdx? (· == obr) = some fb)
    (h2 : loads (out.drop fb) = none) :
    (∀ (lb : Nat) (v : α), lastIdx (out.drop fb) cbr = some lb →
        loads ((out.drop fb).take (lb + 1)) = some v →
        get_uncovered loads out = Except.ok v) ∧
      ∀ lb : Nat, lastIdx (out.drop fb) cbr = some lb →
        loads ((out.drop fb).take (lb + 1)) = none →
        ∃ msg, get_uncovered loads out = Except.error msg ∧ containsSub out msg = true := by
  have hne : out ≠ [] := by
    rintro rfl
    rw [List.findIdx?_nil] at h1
    cases h1
  constructor
  · intro lb v h3 h4
    rw [get_uncovered, if_neg hne, h1]
    simp only [h2, h3, h4]
  · intro lb h3 h4
    rw [get_uncovered, if_neg hne, h1]
    simp only [h2, h3, h4]
    exact ⟨_, rfl, containsSub_append_self _ _⟩

/-- C9 witness: concrete run where the suffix from the first `{` fails to
parse, and the retry on the text trimmed at the last `}` succeeds. -/
theorem get_uncovered_recovery_witness :
    (fun l => if l = [obr, cbr] then some 0 else none : List Char → Option Nat)
        ((['x', obr, cbr, 'y'] : List Char).drop 1) = none ∧
      get_uncovered (fun l => if l = [obr, cbr] then some 0 else none)
        ['x', obr, cbr, 'y'] = Except.ok 0 := by
  refine ⟨by decide, ?_⟩
  exact (get_uncovered_recovery (fun l => if l = [obr, cbr] then some 0 else none)
      ['x', obr, cbr, 'y'] 1 (by decide) (by decide)).1 1 0 (by decide) (by decide)

/-! ### Function boundary spotting -/

/-- A detected function span, the dictionaries appended by `find_functions`
(1-based line numbers).  The Python key `end` is a reserved word in Lean and
is written `«end»`. -/
structure FuncSpan where
  name : String
  start : Int
  body_start : Int
  «end» : Int
deriving DecidableEq

/-- `source_lines[i]` (the scan never reads out of range; `""` as default). -/
def getLine (lines : List String) (i : Nat) : String :=
  lines.getD i ""

/-- `c in line`. -/
def hasChar (s : String) (c : Char) : Bool :=
  s.toList.any (· == c)

/-- `str.strip()`. -/
def pyStrip (l : List Char) : List Char :=
  ((l.dropWhile isPyWS).reverse.dropWhile isPyWS).reverse

/-- Worker for `str.split()` (split on whitespace runs, no empty tokens);
`acc` holds the current token in reverse. -/
def pySplitGo (acc : List Char) : List Char → List (List Char)
  | [] => if acc = [] then [] else [acc.reverse]
  | c :: rest =>
    if isPyWS c then
      if acc = [] then pySplitGo [] rest else acc.reverse :: pySplitGo [] rest
    else pySplitGo (c :: acc) rest

/-- `str.split()`. -/
def pySplit (l : List Char) : List (List Char) :=
  pySplitGo [] l

/-- The control-flow keyword set of `find_functions`. -/
def controlKw : List (List Char) :=
  ["if".toList, "for".toList, "while".toList, "switch".toList, "catch".toList, "else".toList]

/-- Net brace count of one line: `line.count('{') - line.count('}')`. -/
def netBraces (s : String) : Int :=
  (s.toList.count obr : Int) - (s.toList.count cbr : Int)

/-- The brace-matching loop of `find_functions` over the lines from index `k`
on, with accumulated depth `depth`: Python's `end_line` — the first line at
which the running depth returns to zero, else the last line of the input. -/
def braceScan : Nat → Int → List String → Nat
  | k, _, [] => k
  | k, depth, l :: rest =>
    let d := depth + netBraces l
    if d = 0 then k
    else
      match rest with
      | [] => k
      | _ :: _ => braceScan (k + 1) d rest

/-- `end_line` for a brace opened at line index `bl`. -/
def braceEnd (lines : List String) (bl : Nat) : Nat :=
  braceScan bl 0 (lines.drop bl)

/-- The look-ahead `for j in range(i+1, min(i+6, n))` for a line containing
an opening brace; the second argument counts the indices left to try. -/
def lookBrace (lines : List String) : Nat → Nat → Option Nat
  | _, 0 => none
  | j, c + 1 =>
    if j < lines.length then
      if hasChar (getLine lines j) obr then some j
      else lookBrace lines (j + 1) c
    else none

/-- The candidate-signature test of `find_functions` at line index `i`:
skip preprocessor/comment lines, require `(` and `)` with no trailing `;`,
exclude lines opening with a control keyword, then locate the opening brace
on this line or within the next five lines.  Returns the brace line index. -/
def candBrace (lines : List String) (i : Nat) : Option Nat :=
  let line := getLine lines i
  let stripped := pyStrip line.toList
  if leadMatch "#".toList stripped || leadMatch "//".toList stripped then none
  else if hasChar line '(' && hasChar line ')' && !(stripped.getLast? == some ';') then
    if (pySplit stripped).headD [] ∈ controlKw then none
    else if hasChar line obr then some i
    else lookBrace lines (i + 1) 5
  else none

/-- Word characters of the regex class `\w` (ASCII reading). -/
def isWordChar (c : Char) : Bool :=
  c.isAlphanum || c = '_'

/-- The character class `[\w:\~<>]` of the signature regex. -/
def isSigChar (c : Char) : Bool :=
  isWordChar c || c = ':' || c = '~' || c = '<' || c = '>'

theorem length_dropWhile_le (p : Char → Bool) :
    ∀ l : List Char, (l.dropWhile p).length ≤ l.length
  | [] => Nat.le_refl _
  | c :: rest => by
    rw [List.dropWhile_cons]
    split_ifs
    · exact Nat.le_trans (length_dropWhile_le p rest) (Nat.le_succ _)
    · exact Nat.le_refl _

/-- `re.search` of `([\w:\~<>]+)\s*\(`: the first maximal run of signature
characters that is followed, after optional whitespace, by `(`.  (Both
classes are disjoint from whitespace and from `(`, so the regex backtracking
is deterministic and the earliest successful start is the start of a run.) -/
def sigSearch : List Char → Option (List Char)
  | [] => none
  | c :: rest =>
    if isSigChar c then
      match (rest.dropWhile isSigChar).dropWhile isPyWS with
      | '(' :: _ => some (c :: rest.takeWhile isSigChar)
      | _ => sigSearch rest
    else sigSearch rest

/-- `str.split("::")` (non-overlapping occurrences, left to right). -/
def splitDC : List Char → List (List Char)
  | [] => [[]]
  | ':' :: ':' :: rest => [] :: splitDC rest
  | c :: rest =>
    match splitDC rest with
    | [] => [[c]]
    | x :: xs => (c :: x) :: xs

/-- The function-name extraction of `find_functions` from the signature
line: the last `::`-segment of the regex capture, else the last
whitespace-delimited token before the first `(`, else `"unknown"`. -/
def extractName (line : String) : String :=
  match sigSearch line.toList with
  | some token => String.mk ((splitDC token).getLastD [])
  | none =>
    let before := line.toList.takeWhile (fun c => !(c == '('))
    match (pySplit (pyStrip before)).getLast? with
    | some w => String.mk w
    | none => "unknown"

/-- The scanning loop of `find_functions`; `fuel` bounds the number of
remaining iterations.  The cursor `i` strictly increases at every iteration
(to `i + 1`, or past the recorded span's end line), so `lines.length`
iterations from cursor `0` always reach `i ≥ lines.length`, and
`find_functions` below is exactly the Python `while` loop. -/
def findLoop (lines : List String) : Nat → Nat → List FuncSpan
  | 0, _ => []
  | fuel + 1, i =>
    if i < lines.length then
      match candBrace lines i with
      | none => findLoop lines fuel (i + 1)
      | some bl =>
        let el := braceEnd lines bl
        { name := extractName (getLine lines i), start := (i : Int) + 1,
          body_start := (bl : Int) + 1, «end» := (el : Int) + 1 } ::
          findLoop lines fuel (el + 1)
    else []

/-- `find_functions` of `tools/map_uncovered_to_functions.py`. -/
def find_functions (lines : List String) : List FuncSpan :=
  findLoop lines lines.length 0

theorem braceScan_ge : ∀ (ls : List String) (k : Nat) (d : Int), k ≤ braceScan k d ls
  | [], k, d => Nat.le_refl _
  | l :: rest, k, d => by
    rw [braceScan.eq_def]
    dsimp only
    split_ifs
    · exact Nat.le_refl _
    · cases rest with
      | nil => exact Nat.le_refl _
      | cons r rs =>
        exact Nat.le_trans (Nat.le_succ k) (braceScan_ge (r :: rs) (k + 1) _)

theorem braceEnd_ge (lines : List String) (bl : Nat) : bl ≤ braceEnd lines bl :=
  braceScan_ge _ bl 0

theorem lookBrace_ge (lines : List String) :
    ∀ (c j bl : Nat), lookBrace lines j c = some bl → j ≤ bl
  | 0, j, bl => by intro h; cases h
  | c + 1, j, bl => by
    intro h
    rw [lookBrace] at h
    split_ifs at h with h1 h2
    · exact Nat.le_of_eq (Option.some.inj h)
    · exact Nat.le_trans (Nat.le_succ j) (lookBrace_ge lines c (j + 1) bl h)

theorem candBrace_ge {lines : List String} {i bl : Nat}
    (h : candBrace lines i = some bl) : i ≤ bl := by
  rw [candBrace] at h
  split_ifs at h
  · exact Nat.le_of_eq (Option.some.inj h)
  · exact Nat.le_trans (Nat.le_succ i) (lookBrace_ge lines 5 (i + 1) bl h)

theorem findLoop_spec (lines : List String) :
    ∀ (fuel i : Nat),
      (∀ s ∈ findLoop lines fuel i,
          (i : Int) + 1 ≤ s.start ∧ s.start ≤ s.body_start ∧ s.body_start ≤ s.«end») ∧
        (findLoop lines fuel i).Pairwise (fun a b => a.«end» < b.start)
  | 0, i => by simp [findLoop]
  | fuel + 1, i => by
    rw [findLoop]
    split_ifs with hi
    · cases hc : candBrace lines i with
      | none =>
        obtain ⟨hb, hp⟩ := findLoop_spec lines fuel (i + 1)
        refine ⟨fun s hs => ?_, hp⟩
        have := hb s hs
        refine ⟨?_, this.2⟩
        have h1 := this.1
        push_cast at h1 ⊢
        omega
      | some bl =>
        have hib : i ≤ bl := candBrace_ge hc
        have hbe : bl ≤ braceEnd lines bl := braceEnd_ge lines bl
        obtain ⟨hb, hp⟩ := findLoop_spec lines fuel (braceEnd lines bl + 1)
        dsimp only
        constructor
        · intro s hs
          rcases List.mem_cons.mp hs with rfl | hs
          · refine ⟨le_refl _, ?_, ?_⟩ <;> (push_cast; omega)
          · have := hb s hs
            refine ⟨?_, this.2⟩
            have h1 := this.1
            push_cast at h1 ⊢
            omega
        · refine List.pairwise_cons.mpr ⟨fun s hs => ?_, hp⟩
          have h1 := (hb s hs).1
          dsimp only
          push_cast at h1 ⊢
          omega
    · simp

/-- C6: every span returned by `find_functions` satisfies
`start ≤ bodyStart ≤ end`, and the spans come in source order, pairwise
non-overlapping: each span starts strictly after the previous span ends. -/
theorem find_functions_spans (lines : List String) :
    (∀ s ∈ find_functions lines,
        s.start ≤ s.body_start ∧ s.body_start ≤ s.«end») ∧
      (find_functions lines).Pairwise (fun a b => a.«end» < b.start) := by
  obtain ⟨hb, hp⟩ := findLoop_spec lines lines.length 0
  exact ⟨fun s hs => (hb s hs).2, hp⟩

/-- C6 witness: the theorem applied to a concrete three-line source with two
functions, and the resulting concrete spans. -/
theorem find_functions_spans_witness :
    (∀ s ∈ find_functions ["int f() \x7b", "\x7d", "int g() \x7b \x7d"],
        s.start ≤ s.body_start ∧ s.body_start ≤ s.«end») ∧
      (find_functions ["int f() \x7b", "\x7d", "int g() \x7b \x7d"]).Pairwise
        (fun a b => a.«end» < b.start) :=
  find_functions_spans ["int f() \x7b", "\x7d", "int g() \x7b \x7d"]

/-! ### Attribution of uncovered lines to functions -/

/-- Value type of the `func_map` dictionary in `map_uncovered_to_functions`. -/
structure MEntry where
  start : Int
  «end» : Int
  uncovered_lines : List Int

/-- One element of the function list returned by
`map_uncovered_to_functions`. -/
structure AttrEntry where
  name : String
  start : Int
  «end» : Int
  uncovered_count : Nat
  uncovered_lines : List Int
deriving DecidableEq

/-- Python-dict assignment `m[k] = v` on an insertion-ordered association
list: replace in place when the key exists, else append at the end. -/
def dictSet (m : List (String × MEntry)) (k : String) (v : MEntry) :
    List (String × MEntry) :=
  match m with
  | [] => [(k, v)]
  | (k', v') :: rest => if k' = k then (k', v) :: rest else (k', v') :: dictSet rest k v

/-- `func_map[k]['uncovered_lines'].append(ln)`. -/
def dictPush (m : List (String × MEntry)) (k : String) (ln : Int) :
    List (String × MEntry) :=
  match m with
  | [] => []
  | (k', v) :: rest =>
    if k' = k then (k', { v with uncovered_lines := v.uncovered_lines ++ [ln] }) :: rest
    else (k', v) :: dictPush rest k ln

/-- The first span in source order whose inclusive `[start, end]` interval
contains `ln` (the inner loop of `map_uncovered_to_functions`). -/
def firstMatch (funcs : List FuncSpan) (ln : Int) : Option FuncSpan :=
  funcs.find? (fun f => decide (f.start ≤ ln ∧ ln ≤ f.«end»))

/-- The first dictionary-building loop of `map_uncovered_to_functions`. -/
def buildMap (funcs : List FuncSpan) : List (String × MEntry) :=
  funcs.foldl
    (fun m f => dictSet m f.name { start := f.start, «end» := f.«end», uncovered_lines := [] })
    []

/-- The attribution loop of `map_uncovered_to_functions` over the uncovered
lines, threading the dictionary and the `others` bucket. -/
def attrLoop (funcs : List FuncSpan) :
    List Int → List (String × MEntry) × List Int → List (String × MEntry) × List Int
  | [], st => st
  | ln :: rest, (m, others) =>
    match firstMatch funcs ln with
    | some f => attrLoop funcs rest (dictPush m f.name ln, others)
    | none => attrLoop funcs rest (m, others ++ [ln])

/-- `map_uncovered_to_functions` of `tools/map_uncovered_to_functions.py`. -/
def map_uncovered_to_functions (uncovered_lines : List Int) (funcs : List FuncSpan) :
    List AttrEntry × List Int :=
  let st := attrLoop funcs uncovered_lines (buildMap funcs, [])
  (st.1.map (fun p =>
      let lines := sortInt p.2.uncovered_lines
      { name := p.1, start := p.2.start, «end» := p.2.«end»,
        uncovered_count := lines.length, uncovered_lines := lines }),
    sortInt st.2)

/-! #### Characterization helpers -/

/-- The key sequence of a Python dict built by successive insertions:
first-occurrence order, later duplicates dropped. -/
def firstKeys (l : List String) : List String :=
  l.reverse.dedup.reverse

/-- The last span in `funcs` carrying a given name — the one whose bounds
survive the duplicate-name insertions of the first loop. -/
def lastSpanD (funcs : List FuncSpan) (nm : String) : FuncSpan :=
  (funcs.filter (fun f => f.name == nm)).getLastD
    { name := nm, start := 0, body_start := 0, «end» := 0 }

/-- The name of the first span containing `ln`, if any. -/
def nameOfMatch (funcs : List FuncSpan) (ln : Int) : Option String :=
  (firstMatch funcs ln).map (fun f => f.name)

/-- The uncovered lines that the attribution loop books under key `nm`. -/
def linesFor (funcs : List FuncSpan) (nm : String) (u : List Int) : List Int :=
  u.filter (fun ln => decide (nameOfMatch funcs ln = some nm))

theorem mem_firstKeys {x : String} {l : List String} : x ∈ firstKeys l ↔ x ∈ l := by
  rw [firstKeys, List.mem_reverse, List.mem_dedup, List.mem_reverse]

theorem nodup_firstKeys (l : List String) : (firstKeys l).Nodup := by
  rw [firstKeys, List.nodup_reverse]
  exact List.nodup_dedup _

theorem firstKeys_append_singleton (l : List String) (x : String) :
    firstKeys (l ++ [x]) = if x ∈ l then firstKeys l else firstKeys l ++ [x] := by
  rw [firstKeys, List.reverse_append, List.reverse_singleton, List.singleton_append]
  by_cases h : x ∈ l
  · rw [if_pos h, List.dedup_cons_of_mem (List.mem_reverse.mpr h), firstKeys]
  · rw [if_neg h, List.dedup_cons_of_not_mem (fun hc => h (List.mem_reverse.mp hc)),
      List.reverse_cons, firstKeys]

theorem firstKeys_eq_self_of_nodup {l : List String} (h : l.Nodup) : firstKeys l = l := by
  rw [firstKeys, List.dedup_eq_self.mpr (List.nodup_reverse.mpr h), List.reverse_reverse]

theorem dictSet_not_mem :
    ∀ {m : List (String × MEntry)} {k : String}, k ∉ m.map Prod.fst → ∀ v,
      dictSet m k v = m ++ [(k, v)]
  | [], k, _, v => rfl
  | (k', v') :: rest, k, h, v => by
    have hne : k' ≠ k := fun he => h (by simp [he])
    rw [dictSet, if_neg hne, List.cons_append,
      dictSet_not_mem (fun hc => h (List.mem_cons_of_mem _ hc)) v]

theorem dictSet_map_mem {g : String → MEntry} :
    ∀ {keys : List String}, keys.Nodup → ∀ {nm : String}, nm ∈ keys → ∀ (v : MEntry),
      dictSet (keys.map (fun k => (k, g k))) nm v =
        keys.map (fun k => (k, if k = nm then v else g k))
  | [], _, nm, h, v => absurd h (List.not_mem_nil nm)
  | k0 :: keys, hnd, nm, h, v => by
    rw [List.map_cons, List.map_cons, dictSet]
    by_cases he : k0 = nm
    · rw [if_pos he, if_pos he]
      subst he
      have : ∀ k ∈ keys, (k, if k = k0 then v else g k) = (k, g k) := fun k hk => by
        rw [if_neg]
        rintro rfl
        exact (List.nodup_cons.mp hnd).1 hk
      rw [List.map_congr_left this]
    · rw [if_neg he, if_neg he,
        dictSet_map_mem (List.nodup_cons.mp hnd).2
          (by rcases List.mem_cons.mp h with rfl | h' <;> [exact absurd rfl he; exact h']) v]

theorem dictPush_map {g : String → MEntry} :
    ∀ {keys : List String}, keys.Nodup → ∀ {nm : String}, nm ∈ keys → ∀ (ln : Int),
      dictPush (keys.map (fun k => (k, g k))) nm ln =
        keys.map (fun k => (k,
          if k = nm then
            { g k with uncovered_lines := (g k).uncovered_lines ++ [ln] }
          else g k))
  | [], _, nm, h, ln => absurd h (List.not_mem_nil nm)
  | k0 :: keys, hnd, nm, h, ln => by
    rw [List.map_cons, List.map_cons, dictPush]
    by_cases he : k0 = nm
    · rw [if_pos he, if_pos he]
      subst he
      have : ∀ k ∈ keys,
          (k, if k = k0 then
            { g k with uncovered_lines := (g k).uncovered_lines ++ [ln] } else g k) =
            (k, g k) := fun k hk => by
        rw [if_neg]
        rintro rfl
        exact (List.nodup_cons.mp hnd).1 hk
      rw [List.map_congr_left this]
    · rw [if_neg he, if_neg he,
        dictPush_map (List.nodup_cons.mp hnd).2
          (by rcases List.mem_cons.mp h with rfl | h' <;> [exact absurd rfl he; exact h']) ln]

theorem lastSpanD_append (funcs : List FuncSpan) (f : FuncSpan) (nm : String) :
    lastSpanD (funcs ++ [f]) nm = if f.name = nm then f else lastSpanD funcs nm := by
  rw [lastSpanD, List.filter_append]
  by_cases h : f.name = nm
  · rw [if_pos h]
    have : List.filter (fun g => g.name == nm) [f] = [f] := by simp [h]
    rw [this, List.getLastD_concat]
  · rw [if_neg h]
    have : List.filter (fun g => g.name == nm) [f] = [] := by simp [h]
    rw [this, List.append_nil, lastSpanD]

theorem buildMap_eq :
    ∀ funcs : List FuncSpan,
      buildMap funcs = (firstKeys (funcs.map (fun f => f.name))).map
        (fun nm => (nm, { start := (lastSpanD funcs nm).start,
                          «end» := (lastSpanD funcs nm).«end»,
                          uncovered_lines := ([] : List Int) })) := by
  intro funcs
  induction funcs using List.reverseRecOn with
  | nil => rfl
  | append_singleton fs f ih =>
    rw [buildMap, List.foldl_append, List.foldl_cons, List.foldl_nil, ← buildMap, ih,
      List.map_append, List.map_singleton, firstKeys_append_singleton]
    by_cases h : f.name ∈ fs.map (fun f => f.name)
    · rw [if_pos h,
        dictSet_map_mem (nodup_firstKeys _) (mem_firstKeys.mpr h)]
      apply List.map_congr_left
      intro nm _
      rw [lastSpanD_append]
      by_cases he : f.name = nm
      · subst he
        simp
      · rw [if_neg he, if_neg (fun hc => he hc.symm)]
    · rw [if_neg h,
        dictSet_not_mem (by
          rw [List.map_map]
          intro hc
          rcases List.mem_map.mp hc with ⟨nm, hnm, he⟩
          exact h (mem_firstKeys.mp (he ▸ hnm))),
        List.map_append, List.map_singleton]
      congr 1
      · apply List.map_congr_left
        intro nm hnm
        rw [lastSpanD_append]
        have hne : f.name ≠ nm := by
          rintro rfl
          exact h (mem_firstKeys.mp hnm)
        rw [if_neg hne]
      · rw [lastSpanD_append, if_pos rfl]

theorem firstMatch_mem {funcs : List FuncSpan} {ln : Int} {f : FuncSpan}
    (h : firstMatch funcs ln = some f) : f ∈ funcs :=
  List.mem_of_find?_eq_some h

theorem linesFor_cons_none {funcs : List FuncSpan} {ln : Int}
    (hm : firstMatch funcs ln = none) (nm : String) (rest : List Int) :
    linesFor funcs nm (ln :: rest) = linesFor funcs nm rest := by
  rw [linesFor, List.filter_cons, nameOfMatch, hm]
  simp [linesFor]

theorem linesFor_cons_some {funcs : List FuncSpan} {ln : Int} {f : FuncSpan}
    (hm : firstMatch funcs ln = some f) (nm : String) (rest : List Int) :
    linesFor funcs nm (ln :: rest) =
      if nm = f.name then ln :: linesFor funcs nm rest else linesFor funcs nm rest := by
  rw [linesFor, List.filter_cons, nameOfMatch, hm]
  by_cases h : nm = f.name
  · subst h
    simp [linesFor]
  · simp [linesFor, h, Ne.symm h]

theorem attrLoop_cons_none {funcs : List FuncSpan} {ln : Int}
    (hm : firstMatch funcs ln = none) (rest : List Int)
    (m : List (String × MEntry)) (others : List Int) :
    attrLoop funcs (ln :: rest) (m, others) = attrLoop funcs rest (m, others ++ [ln]) := by
  rw [attrLoop, hm]

theorem attrLoop_cons_some {funcs : List FuncSpan} {ln : Int} {f : FuncSpan}
    (hm : firstMatch funcs ln = some f) (rest : List Int)
    (m : List (String × MEntry)) (others : List Int) :
    attrLoop funcs (ln :: rest) (m, others) =
      attrLoop funcs rest (dictPush m f.name ln, others) := by
  rw [attrLoop, hm]

theorem attrLoop_eq (funcs : List FuncSpan) {keys : List String} (hnd : keys.Nodup)
    (hsub : ∀ f ∈ funcs, f.name ∈ keys) :
    ∀ (u : List Int) (g : String → MEntry) (others : List Int),
      attrLoop funcs u (keys.map (fun k => (k, g k)), others) =
        (keys.map (fun k => (k, { g k with
            uncovered_lines := (g k).uncovered_lines ++ linesFor funcs k u })),
          others ++ u.filter (fun ln => (firstMatch funcs ln).isNone)) := by
  intro u
  induction u with
  | nil =>
    intro g others
    rw [attrLoop]
    simp [linesFor]
  | cons ln rest ih =>
    intro g others
    cases hm : firstMatch funcs ln with
    | none =>
      rw [attrLoop_cons_none hm, ih, Prod.mk.injEq]
      refine ⟨List.map_congr_left fun k _ => ?_, ?_⟩
      · rw [linesFor_cons_none hm]
      · simp [List.filter_cons, hm]
    | some f =>
      rw [attrLoop_cons_some hm,
        dictPush_map hnd (hsub f (firstMatch_mem hm)), ih, Prod.mk.injEq]
      refine ⟨List.map_congr_left fun k _ => ?_, ?_⟩
      · rw [linesFor_cons_some hm]
        by_cases hk : k = f.name
        · rw [if_pos hk, if_pos hk]
          simp
        · rw [if_neg hk, if_neg hk]
      · simp [List.filter_cons, hm]

/-- Closed form of `map_uncovered_to_functions`: one output entry per
distinct span name in first-occurrence order; each entry carries the bounds
of the last same-named span and the sorted uncovered lines whose first
containing span bears that name; the second component is the sorted list of
lines contained in no span. -/
theorem map_uncovered_eq (u : List Int) (funcs : List FuncSpan) :
    map_uncovered_to_functions u funcs =
      ((firstKeys (funcs.map (fun f => f.name))).map (fun nm =>
          { name := nm, start := (lastSpanD funcs nm).start,
            «end» := (lastSpanD funcs nm).«end»,
            uncovered_count := (sortInt (linesFor funcs nm u)).length,
            uncovered_lines := sortInt (linesFor funcs nm u) }),
        sortInt (u.filter (fun ln => (firstMatch funcs ln).isNone))) := by
  rw [map_uncovered_to_functions, buildMap_eq,
    attrLoop_eq funcs (nodup_firstKeys _)
      (fun f hf => mem_firstKeys.mpr (List.mem_map_of_mem _ hf)) u _ []]
  rw [Prod.mk.injEq]
  constructor
  · rw [List.map_map]
    apply List.map_congr_left
    intro nm _
    simp
  · rw [List.nil_append]

theorem length_sortInt (l : List Int) : (sortInt l).length = l.length :=
  (List.perm_insertionSort _ l).length_eq

theorem mem_sortInt {k : Int} {l : List Int} : k ∈ sortInt l ↔ k ∈ l :=
  (List.perm_insertionSort _ l).mem_iff

theorem nodup_sortInt {l : List Int} (h : l.Nodup) : (sortInt l).Nodup :=
  (List.perm_insertionSort _ l).nodup_iff.mpr h

theorem sorted_sortInt (l : List Int) : (sortInt l).Sorted (· ≤ ·) :=
  List.sorted_insertionSort _ l

theorem countP_decide_eq_one :
    ∀ {keys : List String}, keys.Nodup → ∀ {t : String}, t ∈ keys →
      keys.countP (fun nm => decide (nm = t)) = 1
  | [], _, t, ht => absurd ht (List.not_mem_nil t)
  | k :: ks, hnd, t, ht => by
    rw [List.countP_cons]
    by_cases hk : k = t
    · subst hk
      have h0 : ks.countP (fun nm => decide (nm = k)) = 0 :=
        List.countP_eq_zero.mpr fun nm hnm => by
          simp only [decide_eq_true_eq]
          rintro rfl
          exact (List.nodup_cons.mp hnd).1 hnm
      simp [h0]
    · have ht' : t ∈ ks := by
        rcases List.mem_cons.mp ht with rfl | h'
        · exact absurd rfl hk
        · exact h'
      rw [countP_decide_eq_one (List.nodup_cons.mp hnd).2 ht']
      simp [hk]

theorem countP_keys_match (funcs : List FuncSpan) {keys : List String} (hnd : keys.Nodup)
    (hsub : ∀ f ∈ funcs, f.name ∈ keys) (ln : Int) :
    keys.countP (fun nm => decide (nameOfMatch funcs ln = some nm)) +
      (if (firstMatch funcs ln).isNone then 1 else 0) = 1 := by
  cases hm : firstMatch funcs ln with
  | none =>
    have h0 : keys.countP (fun nm => decide (nameOfMatch funcs ln = some nm)) = 0 :=
      List.countP_eq_zero.mpr fun nm _ => by simp [nameOfMatch, hm]
    simp [h0, hm]
  | some f =>
    have h1 : keys.countP (fun nm => decide (nameOfMatch funcs ln = some nm)) =
        keys.countP (fun nm => decide (nm = f.name)) :=
      List.countP_congr fun nm _ => by simp [nameOfMatch, hm, eq_comm]
    rw [h1, countP_decide_eq_one hnd (hsub f (firstMatch_mem hm))]
    simp [hm]

theorem sum_linesFor_cons (funcs : List FuncSpan) (ln : Int) (rest : List Int) :
    ∀ keys : List String,
      (keys.map (fun nm => (linesFor funcs nm (ln :: rest)).length)).sum =
        keys.countP (fun nm => decide (nameOfMatch funcs ln = some nm)) +
          (keys.map (fun nm => (linesFor funcs nm rest).length)).sum
  | [] => by simp
  | k :: keys => by
    rw [List.map_cons, List.map_cons, List.sum_cons, List.sum_cons, List.countP_cons,
      sum_linesFor_cons funcs ln rest keys]
    have hk : (linesFor funcs k (ln :: rest)).length =
        (linesFor funcs k rest).length +
          (if decide (nameOfMatch funcs ln = some k) then 1 else 0) := by
      rw [linesFor, List.filter_cons]
      split_ifs <;> simp [linesFor]
    omega

theorem sum_linesFor (funcs : List FuncSpan) {keys : List String} (hnd : keys.Nodup)
    (hsub : ∀ f ∈ funcs, f.name ∈ keys) :
    ∀ u : List Int,
      (keys.map (fun nm => (linesFor funcs nm u).length)).sum +
        (u.filter (fun ln => (firstMatch funcs ln).isNone)).length = u.length
  | [] => by simp [linesFor]
  | ln :: rest => by
    have h1 := sum_linesFor_cons funcs ln rest keys
    have h2 := countP_keys_match funcs hnd hsub ln
    have h3 := sum_linesFor funcs hnd hsub rest
    rw [List.filter_cons]
    split_ifs at h2 ⊢ with hif
    · simp only [List.length_cons]
      omega
    · simp only [List.length_cons]
      omega

/-- C1: conservation of uncovered lines by `map_uncovered_to_functions`: the
sum of `uncovered_count` over the returned entries plus the length of the
returned `others` bucket equals the number of input uncovered lines, and
every input line lies in exactly one bucket (exactly one entry's list, or
the `others` list). -/
theorem mapU_conserves (u : List Int) (funcs : List FuncSpan) :
    (((map_uncovered_to_functions u funcs).1.map (fun e => e.uncovered_count)).sum +
        (map_uncovered_to_functions u funcs).2.length = u.length) ∧
      ∀ ln ∈ u,
        (map_uncovered_to_functions u funcs).1.countP
            (fun e => decide (ln ∈ e.uncovered_lines)) +
          (if ln ∈ (map_uncovered_to_functions u funcs).2 then 1 else 0) = 1 := by
  have hnd := nodup_firstKeys (funcs.map (fun f => f.name))
  have hsub : ∀ f ∈ funcs, f.name ∈ firstKeys (funcs.map (fun f => f.name)) :=
    fun f hf => mem_firstKeys.mpr (List.mem_map_of_mem _ hf)
  constructor
  · rw [map_uncovered_eq, List.map_map, length_sortInt]
    simp only [Function.comp_def]
    simp only [length_sortInt]
    exact sum_linesFor funcs hnd hsub u
  · intro ln hln
    rw [map_uncovered_eq]
    cases hm : firstMatch funcs ln with
    | none =>
      have hothers : ln ∈ sortInt (u.filter fun ln => (firstMatch funcs ln).isNone) := by
        rw [mem_sortInt, List.mem_filter]
        exact ⟨hln, by simp [hm]⟩
      have hcount : ((firstKeys (funcs.map (fun f => f.name))).map (fun nm =>
          ({ name := nm, start := (lastSpanD funcs nm).start,
             «end» := (lastSpanD funcs nm).«end»,
             uncovered_count := (sortInt (linesFor funcs nm u)).length,
             uncovered_lines := sortInt (linesFor funcs nm u) } : AttrEntry))).countP
            (fun e => decide (ln ∈ e.uncovered_lines)) = 0 := by
        rw [List.countP_map]
        refine List.countP_eq_zero.mpr fun nm _ => ?_
        simp [mem_sortInt, linesFor, List.mem_filter, nameOfMatch, hm]
      simp only [hcount, if_pos hothers]
    | some f =>
      have hnot : ln ∉ sortInt (u.filter fun ln => (firstMatch funcs ln).isNone) := by
        rw [mem_sortInt, List.mem_filter]
        rintro ⟨-, hbad⟩
        rw [hm] at hbad
        cases hbad
      have hcount : ((firstKeys (funcs.map (fun f => f.name))).map (fun nm =>
          ({ name := nm, start := (lastSpanD funcs nm).start,
             «end» := (lastSpanD funcs nm).«end»,
             uncovered_count := (sortInt (linesFor funcs nm u)).length,
             uncovered_lines := sortInt (linesFor funcs nm u) } : AttrEntry))).countP
            (fun e => decide (ln ∈ e.uncovered_lines)) = 1 := by
        rw [List.countP_map,
          ← countP_decide_eq_one hnd (hsub f (firstMatch_mem hm))]
        apply List.countP_congr
        intro nm _
        simp only [Function.comp_apply, decide_eq_true_eq]
        rw [mem_sortInt, linesFor, List.mem_filter]
        constructor
        · rintro ⟨-, hb⟩
          rw [decide_eq_true_eq, nameOfMatch, hm] at hb
          simpa [eq_comm] using hb
        · rintro rfl
          exact ⟨hln, by simp [nameOfMatch, hm]⟩
      simp only [hcount, if_neg hnot]
/-- C1 witness: the theorem applied at `u = [2, 4]` with one span covering
lines 1–3, the per-line part instantiated at the member line 2. -/
theorem mapU_conserves_witness :
    (((map_uncovered_to_functions [2, 4] [⟨"a", 1, 1, 3⟩]).1.map
            (fun e => e.uncovered_count)).sum +
        (map_uncovered_to_functions [2, 4] [⟨"a", 1, 1, 3⟩]).2.length =
          ([2, 4] : List Int).length) ∧
      (map_uncovered_to_functions [2, 4] [⟨"a", 1, 1, 3⟩]).1.countP
          (fun e => decide ((2 : Int) ∈ e.uncovered_lines)) +
        (if (2 : Int) ∈ (map_uncovered_to_functions [2, 4] [⟨"a", 1, 1, 3⟩]).2
          then 1 else 0) = 1 :=
  ⟨(mapU_conserves [2, 4] [⟨"a", 1, 1, 3⟩]).1,
   (mapU_conserves [2, 4] [⟨"a", 1, 1, 3⟩]).2 2 (by decide)⟩

/-- C3 counterexample: two spans named `"f"` produce a single output entry,
not one entry per discovered span (the input has two spans). -/
theorem mapU_dup_span_entries :
    (map_uncovered_to_functions ([] : List Int)
        [{ name := "f", start := 1, body_start := 1, «end» := 2 },
         { name := "f", start := 5, body_start := 5, «end» := 6 }]).1.length = 1 := by
  decide

/-- C3 (amended): `map_uncovered_to_functions` returns exactly one entry per
distinct span name, in first-occurrence order; when the span names are
pairwise distinct this is exactly one entry per discovered span, in source
order — including spans with zero uncovered lines. -/
theorem mapU_entries_per_name (u : List Int) (funcs : List FuncSpan) :
    ((map_uncovered_to_functions u funcs).1.map (fun e => e.name) =
        firstKeys (funcs.map (fun f => f.name))) ∧
      ((funcs.map (fun f => f.name)).Nodup →
        (map_uncovered_to_functions u funcs).1.map (fun e => e.name) =
          funcs.map (fun f => f.name)) := by
  have h1 : (map_uncovered_to_functions u funcs).1.map (fun e => e.name) =
      firstKeys (funcs.map (fun f => f.name)) := by
    rw [map_uncovered_eq, List.map_map]
    exact (List.map_congr_left fun nm _ => rfl).trans (List.map_id _)
  exact ⟨h1, fun hnd => h1.trans (firstKeys_eq_self_of_nodup hnd)⟩

/-- C3 witness: with distinct names `"a"`, `"b"` the output has exactly one
entry per span, in source order. -/
theorem mapU_entries_per_name_witness :
    (map_uncovered_to_functions [3] [⟨"a", 1, 1, 2⟩, ⟨"b", 4, 4, 9⟩]).1.map
        (fun e => e.name) =
      ([⟨"a", 1, 1, 2⟩, ⟨"b", 4, 4, 9⟩] : List FuncSpan).map (fun f => f.name) :=
  (mapU_entries_per_name [3] [⟨"a", 1, 1, 2⟩, ⟨"b", 4, 4, 9⟩]).2 (by decide)

/-- C5: attribution is first-match: the unattributed bucket is exactly the
(sorted) input lines contained in no span, the entry carrying name `nm`
collects exactly the (sorted) input lines whose first containing span in
source order — `firstMatch`, the `find?` over the span list — is named `nm`,
and `firstMatch` yields `none` precisely when no span's inclusive
`[start, end]` interval contains the line. -/
theorem mapU_first_match (u : List Int) (funcs : List FuncSpan) :
    ((map_uncovered_to_functions u funcs).2 =
        sortInt (u.filter (fun ln => (firstMatch funcs ln).isNone))) ∧
      (∀ e ∈ (map_uncovered_to_functions u funcs).1,
          e.uncovered_lines = sortInt (linesFor funcs e.name u)) ∧
      ∀ ln : Int,
        (firstMatch funcs ln = none ↔
          ∀ f ∈ funcs, ¬(f.start ≤ ln ∧ ln ≤ f.«end»)) := by
  refine ⟨?_, ?_, ?_⟩
  · rw [map_uncovered_eq]
  · rw [map_uncovered_eq]
    intro e he
    rcases List.mem_map.mp he with ⟨nm, _, rfl⟩
    rfl
  · intro ln
    rw [firstMatch, List.find?_eq_none]
    simp

/-- C5 witness: the theorem applied at `u = [2, 9]` with a single span
covering lines 1–5. -/
theorem mapU_first_match_witness :
    ((map_uncovered_to_functions [2, 9] [⟨"a", 1, 1, 5⟩]).2 =
        sortInt (([2, 9] : List Int).filter
          (fun ln => (firstMatch [⟨"a", 1, 1, 5⟩] ln).isNone))) ∧
      (∀ e ∈ (map_uncovered_to_functions [2, 9] [⟨"a", 1, 1, 5⟩]).1,
          e.uncovered_lines = sortInt (linesFor [⟨"a", 1, 1, 5⟩] e.name [2, 9])) ∧
      ∀ ln : Int,
        (firstMatch [⟨"a", 1, 1, 5⟩] ln = none ↔
          ∀ f ∈ ([⟨"a", 1, 1, 5⟩] : List FuncSpan), ¬(f.start ≤ ln ∧ ln ≤ f.«end»)) :=
  mapU_first_match [2, 9] [⟨"a", 1, 1, 5⟩]

/-- C7 counterexample: a duplicated input line is not deduplicated — the
entry's `uncovered_lines` comes out as `[5, 5]`, which is not unique. -/
theorem mapU_duplicate_lines :
    ∃ e ∈ (map_uncovered_to_functions [5, 5] [⟨"f", 1, 1, 10⟩]).1,
      e.uncovered_lines = [5, 5] ∧ ¬e.uncovered_lines.Nodup := by
  decide

/-- C7 (amended): every entry's `uncovered_lines` and the unattributed list
are sorted ascending; they are additionally duplicate-free whenever the input
uncovered-line list itself has no duplicates (the code does not deduplicate a
repeated input line). -/
theorem mapU_sorted (u : List Int) (funcs : List FuncSpan) :
    (∀ e ∈ (map_uncovered_to_functions u funcs).1,
        e.uncovered_lines.Sorted (· ≤ ·)) ∧
      (map_uncovered_to_functions u funcs).2.Sorted (· ≤ ·) ∧
      (u.Nodup →
        (∀ e ∈ (map_uncovered_to_functions u funcs).1, e.uncovered_lines.Nodup) ∧
          (map_uncovered_to_functions u funcs).2.Nodup) := by
  rw [map_uncovered_eq]
  refine ⟨?_, sorted_sortInt _, fun hu => ⟨?_, nodup_sortInt (hu.filter _)⟩⟩
  · intro e he
    rcases List.mem_map.mp he with ⟨nm, _, rfl⟩
    exact sorted_sortInt _
  · intro e he
    rcases List.mem_map.mp he with ⟨nm, _, rfl⟩
    exact nodup_sortInt (hu.filter _)

/-- C7 witness: at the duplicate-free input `[7, 3]` the entry lists and the
unattributed list are duplicate-free. -/
theorem mapU_sorted_witness :
    (∀ e ∈ (map_uncovered_to_functions [7, 3] [⟨"a", 1, 1, 5⟩]).1,
        e.uncovered_lines.Nodup) ∧
      (map_uncovered_to_functions [7, 3] [⟨"a", 1, 1, 5⟩]).2.Nodup :=
  (mapU_sorted [7, 3] [⟨"a", 1, 1, 5⟩]).2.2 (by decide)

/-- C10: spans sharing one name are merged into the single entry keyed by
that name: exactly one output entry carries the name, its bounds are those of
the last same-named input span, and its `uncovered_lines` accumulates (in
sorted order) the lines attributed to any span of that name. -/
theorem mapU_merge_names (u : List Int) (funcs : List FuncSpan) (nm : String)
    (h : nm ∈ funcs.map (fun f => f.name)) :
    ((map_uncovered_to_functions u funcs).1.countP
        (fun e => decide (e.name = nm)) = 1) ∧
      ∀ e ∈ (map_uncovered_to_functions u funcs).1, e.name = nm →
        e.start = (lastSpanD funcs nm).start ∧
          e.«end» = (lastSpanD funcs nm).«end» ∧
          e.uncovered_lines = sortInt (linesFor funcs nm u) := by
  rw [map_uncovered_eq]
  constructor
  · rw [List.countP_map]
    exact countP_decide_eq_one (nodup_firstKeys _) (mem_firstKeys.mpr h)
  · intro e he hname
    rcases List.mem_map.mp he with ⟨k, _, rfl⟩
    have hk : k = nm := hname
    subst hk
    exact ⟨rfl, rfl, rfl⟩

/-- C10 witness: two spans named `"f"`; line 1 lies in the first, line 6 in
the second, line 9 in neither — one merged entry with the last span's bounds
and both attributed lines. -/
theorem mapU_merge_names_witness :
    ((map_uncovered_to_functions [1, 6, 9] [⟨"f", 1, 1, 2⟩, ⟨"f", 5, 5, 6⟩]).1.countP
        (fun e => decide (e.name = "f")) = 1) ∧
      ∀ e ∈ (map_uncovered_to_functions [1, 6, 9] [⟨"f", 1, 1, 2⟩, ⟨"f", 5, 5, 6⟩]).1,
        e.name = "f" →
        e.start = (lastSpanD [⟨"f", 1, 1, 2⟩, ⟨"f", 5, 5, 6⟩] "f").start ∧
          e.«end» = (lastSpanD [⟨"f", 1, 1, 2⟩, ⟨"f", 5, 5, 6⟩] "f").«end» ∧
          e.uncovered_lines =
            sortInt (linesFor [⟨"f", 1, 1, 2⟩, ⟨"f", 5, 5, 6⟩] "f" [1, 6, 9]) :=
  mapU_merge_names [1, 6, 9] [⟨"f", 1, 1, 2⟩, ⟨"f", 5, 5, 6⟩] "f" (by decide)

end Coverage
